import Mathlib

deriving instance DecidableEq for Except

/-!
Shallow embedding of the xdxf2slob conversion core
(`src/xdxf2slob/__init__.py`, class `XDXF` and its module constants).

Python's `xml.etree.ElementTree` elements are modelled by `Element` below:
a tag name, an ordered attribute list (values are `Option String` because
handlers may store `None` there), an optional leading text, an ordered list
of children and an optional trailing text (`tail`).  Python strings that may
be `None` are modelled as `Option String`; the `None`-vs-empty distinctions
of the source (`if title:`, `element.text or ''`, Element truthiness) are
reproduced exactly.  Operations that raise a `TypeError` in Python
(concatenating `None` to a string, serializing a `None` attribute value)
return `Except Unit` values with `.error ()` at the raising point.
-/

namespace XdxfToSlob

/-- Model of an `xml.etree.ElementTree.Element` node. -/
structure Element where
  tag : String
  attrib : List (String × Option String)
  text : Option String
  children : List Element
  tail : Option String
deriving Repr

/-- Python truthiness of an optional string: `None` and `''` are falsy. -/
def truthy : Option String → Bool
  | none => false
  | some s => s ≠ ""

/-- ASCII lowering of one character. -/
def lowerChar (c : Char) : Char :=
  if 'A' ≤ c ∧ c ≤ 'Z' then Char.ofNat (c.toNat + 32) else c

/-- `str.lower()` as it acts on the tag names the source dispatches on
(element names are ASCII; non-ASCII characters pass through). -/
def pyLower (s : String) : String :=
  ⟨s.data.map lowerChar⟩

/-- Replace every occurrence of the character `c` by `rep`. -/
def replaceChar (c : Char) (rep : List Char) : List Char → List Char
  | [] => []
  | x :: rest => (if x = c then rep else [x]) ++ replaceChar c rep rest

/-- `s.replace(c, rep)` for a one-character pattern, the only shape of
`str.replace` the source uses. -/
def strReplaceChar (s : String) (c : Char) (rep : String) : String :=
  ⟨replaceChar c rep.data s.data⟩

/-- `title += s` / `title = s` pattern of `_mktitle` for a tail known to be
truthy (guarded by `if c.tail:`), hence never raising. -/
def appendStr (title : Option String) (s : String) : Option String :=
  if truthy title then some (title.getD "" ++ s) else some s

/-- `if title: title += c.text else: title = c.text` where `c.text` may be
`None`: concatenating `None` onto a truthy string raises `TypeError`. -/
def appendOpt (title : Option String) (s : Option String) :
    Except Unit (Option String) :=
  if truthy title then
    match s with
    | none => .error ()
    | some s' => .ok (some (title.getD "" ++ s'))
  else .ok s

/-- Loop body of `XDXF._mktitle` (source lines 159–180): walk the children,
appending a `nu` child's truthy tail, and for an `opt` child its text when
its 0-based index is in `incl` plus its truthy tail always.  `optIdx` is the
number of `opt` children already passed (the source's `opt_i + 1`). -/
def mktitleGo (incl : List Nat) :
    List Element → Nat → Option String → Except Unit (Option String)
  | [], _, title => .ok title
  | c :: rest, optIdx, title =>
    let title := if c.tag = "nu" ∧ truthy c.tail then appendStr title (c.tail.getD "") else title
    if c.tag = "opt" then
      match (if optIdx ∈ incl then appendOpt title c.text else .ok title) with
      | .error e => .error e
      | .ok t2 =>
        let t3 := if truthy c.tail then appendStr t2 (c.tail.getD "") else t2
        mktitleGo incl rest (optIdx + 1) t3
    else
      mktitleGo incl rest optIdx title

/-- `XDXF._mktitle title_element include_opts`. -/
def mktitle (e : Element) (incl : List Nat) : Except Unit (Option String) :=
  mktitleGo incl e.children 0 e.text

/-- `itertools.combinations (range of l) j`: the `j`-element subsequences of
`l` in lexicographic order of positions. -/
def combosFrom : List Nat → Nat → List (List Nat)
  | _, 0 => [[]]
  | [], _ + 1 => []
  | x :: xs, j + 1 => (combosFrom xs j).map (x :: ·) ++ combosFrom xs (j + 1)

/-- Sequencing a fallible map over a list, propagating the first error
(models a Python loop that appends `f x` and may raise). -/
def mapExcept (f : α → Except Unit β) : List α → Except Unit (List β)
  | [] => .ok []
  | a :: as =>
    match f a with
    | .error e => .error e
    | .ok b =>
      match mapExcept f as with
      | .error e => .error e
      | .ok bs => .ok (b :: bs)

/-- Number of `opt` children of a title element
(`len([c for c in title_element if c.tag == 'opt'])`, source line 210). -/
def countOpts (k : Element) : Nat :=
  (k.children.filter (fun c => c.tag = "opt")).length

/-- All combinations fed to `_mktitle` for one title element with `n ≥ 1`
optional segments: sizes `j = 0..n`, each size in combination order
(source lines 212–214). -/
def allCombos (n : Nat) : List (List Nat) :=
  (List.range (n + 1)).flatMap (fun j => combosFrom (List.range n) j)

/-- Titles contributed by one `k` child of an article (source lines 209–216):
`2^n` variants when the element has `n ≥ 1` `opt` children, else the single
variant `_mktitle(title_element)`. -/
def titlesForK (k : Element) : Except Unit (List (Option String)) :=
  if countOpts k ≠ 0 then
    mapExcept (mktitle k) (allCombos (countOpts k))
  else
    match mktitle k [] with
    | .error e => .error e
    | .ok v => .ok [v]

/-- `element.findall('k')`: the direct children tagged exactly `k`. -/
def kChildren (e : Element) : List Element :=
  e.children.filter (fun c => c.tag = "k")

/-- The whole key list of an article: titles of all `k` children
concatenated in document order (source lines 208–216). -/
def articleTitles (ar : Element) : Except Unit (List (Option String)) :=
  match mapExcept titlesForK (kChildren ar) with
  | .error e => .error e
  | .ok tss => .ok tss.flatten

/-! ### Attributes and abbreviation table -/

/-- `element.set(k, v)`: overwrite the attribute if present, else append
(Python dicts keep insertion order and update in place). -/
def setAttr : List (String × Option String) → String → Option String →
    List (String × Option String)
  | [], k, v => [(k, v)]
  | (k', v') :: rest, k, v =>
    if k' = k then (k, v) :: rest else (k', v') :: setAttr rest k v

/-- The abbreviation dictionary built by `_mkabbrs`: keys and values are the
raw `.text` fields, either of which Python may leave as `None`. -/
abbrev AbbrTable := List (Option String × Option String)

/-- Python dict assignment `abbrs[k] = v`. -/
def dictInsert : AbbrTable → Option String → Option String → AbbrTable
  | [], k, v => [(k, v)]
  | (k', v') :: rest, k, v =>
    if k' = k then (k, v) :: rest else (k', v') :: dictInsert rest k v

/-- Python `k in abbrs`. -/
def dictContains (m : AbbrTable) (k : Option String) : Bool :=
  (List.lookup k m).isSome

/-- Python `abbrs[k]` (callers guard with `dictContains`). -/
def dictGet (m : AbbrTable) (k : Option String) : Option String :=
  match List.lookup k m with
  | some v => v
  | none => none

/-- `element.find(t)`: first direct child with exactly this tag. -/
def findChild (e : Element) (t : String) : Option Element :=
  (e.children.filter (fun c => c.tag = t)).head?

/-- Register every `k` child of an `abr_def` entry
(`for key in abrdef.findall('k'): abbrs[key.text] = value_txt`). -/
def registerKeys : List Element → Option String → AbbrTable → AbbrTable
  | [], _, abbrs => abbrs
  | k :: rest, valueTxt, abbrs =>
    registerKeys rest valueTxt (dictInsert abbrs k.text valueTxt)

/-- Loop of `XDXF._mkabbrs` (source lines 123–132) over the children of the
`abbreviations` element.  The source guards registration with `if value:`
where `value` is an ElementTree element: that truthiness test is by number
of child elements, so it is modelled as `value.children ≠ []`. -/
def mkabbrsGo : List Element → AbbrTable → AbbrTable
  | [], abbrs => abbrs
  | abrdef :: rest, abbrs =>
    mkabbrsGo rest
      (if pyLower abrdef.tag = "abr_def" then
        match findChild abrdef "v" with
        | none => abbrs
        | some value =>
          if value.children.isEmpty then abbrs
          else
            registerKeys (abrdef.children.filter (fun c => c.tag = "k"))
              value.text abbrs
      else abbrs)

/-- `XDXF._mkabbrs`: build a fresh table from an `abbreviations` element. -/
def mkabbrs (element : Element) : AbbrTable :=
  mkabbrsGo element.children []

/-! ### Element transformation -/

/-- `VISUAL_TAGS` module constant (source lines 59–75). -/
def VISUAL_TAGS : List String :=
  ["ar", "k", "opt", "nu", "def", "pos", "tense", "tr", "dtrn",
   "kref", "rref", "iref", "abr", "c", "ex", "co", "su"]

/-- `BLOCK_TAGS` module constant (source line 77). -/
def BLOCK_TAGS : List String := ["k"]

/-- `XDXF.default_tag_handler` (source lines 118–121): a visual tag becomes
a class-bearing `div` (when in `BLOCK_TAGS`) or `span`; anything else is
left unchanged. -/
def default_tag_handler (e : Element) : Element :=
  if e.tag ∈ VISUAL_TAGS then
    { e with attrib := setAttr e.attrib "class" (some e.tag),
             tag := if e.tag ∈ BLOCK_TAGS then "div" else "span" }
  else e

/-- `XDXF._transform_element` (source lines 134–137): look the handler up by
the lowercased tag name (`getattr(self, '_tag_handler_' + tag.lower(), ...)`)
and apply it; with no registered handler apply `default_tag_handler`.  Each
branch is the body of the corresponding `_tag_handler_*` method
(source lines 86–121); every handler rewrites only the node itself. -/
def transformNode (abbrs : AbbrTable) (e : Element) : Element :=
  let t := pyLower e.tag
  if t = "ar" then
    { e with attrib := setAttr e.attrib "class" (some e.tag), tag := "div" }
  else if t = "c" then
    let color : Option String :=
      match List.lookup "c" e.attrib with
      | some v => v
      | none => some ""
    { e with tag := "span",
             attrib :=
               if truthy color then
                 setAttr [] "style" (some ("color: " ++ color.getD "" ++ ";"))
               else [] }
  else if t = "iref" then { e with tag := "a" }
  else if t = "kref" then
    { e with tag := "a", attrib := setAttr e.attrib "href" e.text }
  else if t = "su" then
    { e with tag := "div", attrib := setAttr e.attrib "class" (some "su") }
  else if t = "def" then { e with tag := "blockquote" }
  else if t = "abr" then
    { e with tag := "abbr",
             attrib :=
               if dictContains abbrs e.text then
                 setAttr e.attrib "title" (dictGet abbrs e.text)
               else e.attrib }
  else default_tag_handler e

mutual

/-- Apply `transformNode` to a node and, recursively, to every descendant
(the `for child in element.iter()` pass of `_text`; handlers never touch the
child list — `transformNode_children` below — so recursing on the input's
children is exact). -/
def transformTree (abbrs : AbbrTable) (e : Element) : Element :=
  match e with
  | ⟨tag, attrib, text, children, tail⟩ =>
    match transformNode abbrs ⟨tag, attrib, text, children, tail⟩ with
    | ⟨tag2, attrib2, text2, _, tail2⟩ =>
      ⟨tag2, attrib2, text2, transformTreeList abbrs children, tail2⟩

def transformTreeList (abbrs : AbbrTable) : List Element → List Element
  | [] => []
  | c :: cs => transformTree abbrs c :: transformTreeList abbrs cs

end

/-- The whole transformation pass of `_text` (source lines 150–152): one
explicit `_transform_element(element)` call on the root, then one call per
node yielded by `element.iter()` — which yields the root itself again first,
then every descendant in pre-order. -/
def transformAll (abbrs : AbbrTable) (e : Element) : Element :=
  transformTree abbrs (transformNode abbrs e)

mutual

/-- Positions (child-index paths) of the nodes yielded by `element.iter()`:
the element itself first, then each subtree in document order (pre-order). -/
def iterPaths (e : Element) : List (List Nat) :=
  match e with
  | ⟨_, _, _, children, _⟩ => [] :: iterPathsList children 0

def iterPathsList : List Element → Nat → List (List Nat)
  | [], _ => []
  | c :: cs, i => (iterPaths c).map (i :: ·) ++ iterPathsList cs (i + 1)

end

/-- The sequence of tree positions at which `_text` dispatches a tag handler
(source lines 150–152): one explicit dispatch on the article root, then one
dispatch per node yielded by `element.iter()` (root first, pre-order).
Handlers rewrite only the node they receive, so the node set of the tree is
unchanged while the loop runs. -/
def dispatchLog (e : Element) : List (List Nat) :=
  [] :: iterPaths e

/-! ### Title stripping (`--skip-article-title`) -/

/-- Python `str` whitespace as used by `str.lstrip()`. -/
def pyIsSpace (c : Char) : Bool :=
  c = ' ' ∨ c = '\t' ∨ c = '\n' ∨ c = '\r' ∨ c = '\x0b' ∨ c = '\x0c'

/-- `str.lstrip()`. -/
def lstrip (s : String) : String :=
  ⟨s.data.dropWhile pyIsSpace⟩

/-- `tail = ''` then `for k in element.findall('k'): if k.tail: tail += k.tail`
(source lines 143–147). -/
def kTailConcat : List Element → String
  | [] => ""
  | k :: rest => (if truthy k.tail then k.tail.getD "" else "") ++ kTailConcat rest

/-- Title-stripping step of `_text` (source lines 142–149): concatenate the
tails of the direct `k` children, left-strip the concatenation, prepend it to
the root's own text and drop the `k` children. -/
def stripTitles (e : Element) : Element :=
  let tail := lstrip (kTailConcat (kChildren e))
  { e with
    text := if truthy e.text then some (tail ++ e.text.getD "") else some tail,
    children := e.children.filter (fun c => c.tag ≠ "k") }

/-! ### Serialization (`etree.tostring`) -/

/-- Text-node escaping of the ElementTree XML serializer. -/
def escText (s : String) : String :=
  strReplaceChar (strReplaceChar (strReplaceChar s '&' "&amp;") '<' "&lt;") '>' "&gt;"

/-- Attribute-value escaping of the ElementTree XML serializer. -/
def escAttrib (s : String) : String :=
  strReplaceChar (strReplaceChar (strReplaceChar (strReplaceChar s '&' "&amp;") '<' "&lt;") '>' "&gt;") '"' "&quot;"

/-- Serialize the attribute list; a `None` value raises
`TypeError: cannot serialize None` in ElementTree, modelled as `.error ()`. -/
def attribString : List (String × Option String) → Except Unit String
  | [] => .ok ""
  | (_, none) :: _ => .error ()
  | (k, some v) :: rest =>
    match attribString rest with
    | .error er => .error er
    | .ok s => .ok (" " ++ k ++ "=\"" ++ escAttrib v ++ "\"" ++ s)

mutual

/-- `etree.tostring(element, encoding='unicode')`: markup of the element,
its subtree and its trailing tail.  An element with falsy text and no
children is written in the short `<tag />` form, as the serializer does. -/
def tostring (e : Element) : Except Unit String :=
  match e with
  | ⟨tag, attrib, text, children, tail⟩ =>
    match attribString attrib, tostringList children with
    | .ok attrs, .ok inner =>
      let tailTxt := if truthy tail then escText (tail.getD "") else ""
      if truthy text || !children.isEmpty then
        .ok ("<" ++ tag ++ attrs ++ ">" ++
              (if truthy text then escText (text.getD "") else "") ++
              inner ++ "</" ++ tag ++ ">" ++ tailTxt)
      else
        .ok ("<" ++ tag ++ attrs ++ " />" ++ tailTxt)
    | .error er, _ => .error er
    | _, .error er => .error er

def tostringList : List Element → Except Unit String
  | [] => .ok ""
  | c :: cs =>
    match tostring c, tostringList cs with
    | .ok s, .ok t => .ok (s ++ t)
    | .error er, _ => .error er
    | _, .error er => .error er

end

/-! ### Article rendering (`XDXF._text`) -/

/-- The two boolean options of the `XDXF` constructor. -/
structure Config where
  skip_article_title : Bool
  remove_newline : Bool
deriving Repr, DecidableEq

/-- `ARTICLE_TEMPLATE` (source lines 31–36) up to its trailing `%s`;
`ARTICLE_TEMPLATE % txt` is `ARTICLE_TEMPLATE_head ++ txt`. -/
def ARTICLE_TEMPLATE_head : String :=
  "<script src=\"~/js/styleswitcher.js\"></script>" ++
  "<link rel=\"stylesheet\" href=\"~/css/default.css\" type=\"text/css\">" ++
  "<link rel=\"alternate stylesheet\" href=\"~/css/night.css\" type=\"text/css\" title=\"Night\">"

/-- `ARTICLE_CONTENT_TYPE` (source line 29). -/
def ARTICLE_CONTENT_TYPE : String := "text/html;charset=utf-8"

/-- `XDXF._text` (source lines 140–157).  The method deep-copies its
argument and mutates only the copy, so it is a pure function of the input
element; the UTF-8 `encode` step is injective and the body is kept as a
string. -/
def textRender (cfg : Config) (abbrs : AbbrTable) (xdxfElement : Element) :
    Except Unit String :=
  let element := xdxfElement
  let element := if cfg.skip_article_title then stripTitles element else element
  let element := transformAll abbrs element
  match tostring element with
  | .error er => .error er
  | .ok txt =>
    let txt := if cfg.remove_newline then strReplaceChar txt '\n' " " else txt
    .ok (ARTICLE_TEMPLATE_head ++ txt)

/-! ### Stream parsing (`XDXF.parse`) -/

/-- Uppercase hexadecimal digit. -/
def hexChar (n : Nat) : Char :=
  (['0', '1', '2', '3', '4', '5', '6', '7',
    '8', '9', 'A', 'B', 'C', 'D', 'E', 'F']).getD n '0'

/-- Bytes `urllib.parse.quote` leaves unescaped with `safe=''`:
ASCII letters, digits and `_ . - ~`. -/
def isUnreservedByte (b : UInt8) : Bool :=
  (65 ≤ b.toNat ∧ b.toNat ≤ 90) ∨ (97 ≤ b.toNat ∧ b.toNat ≤ 122) ∨
  (48 ≤ b.toNat ∧ b.toNat ≤ 57) ∨
  b.toNat = 95 ∨ b.toNat = 46 ∨ b.toNat = 45 ∨ b.toNat = 126

/-- `urllib.parse.quote(label.encode('utf-8'), safe='')` (source line 195). -/
def quote (s : String) : String :=
  String.join (s.toUTF8.toList.map (fun b =>
    if isUnreservedByte b then String.singleton (Char.ofNat b.toNat)
    else "%" ++ String.singleton (hexChar (b.toNat / 16)) ++
         String.singleton (hexChar (b.toNat % 16))))

/-- Prefix of `etree.tostring(element, encoding='utf8')` output. -/
def XML_DECL : String := "<?xml version=\x271.0\x27 encoding=\x27utf8\x27?>\n"

/-- An output of one iteration step of `XDXF.parse`: a metadata `Tag`
record, a `Content` record (body, keys, content type), or the warning the
method logs for an article without titles. -/
inductive Item where
  | tag : String → String → Item
  | content : String → List (Option String) → String → Item
  | warn : String → Item
deriving Repr, DecidableEq

/-- `element.get(k, '')` on original (parsed) elements. -/
def pyGet (e : Element) (k : String) : String :=
  match List.lookup k e.attrib with
  | none => ""
  | some v => v.getD ""

/-- Body of the `iterparse` loop of `XDXF.parse` (source lines 187–223) for
one closed element: the items yielded for it (with the warning the method
would log) and the abbreviation table after the step.  Errors raised while
rendering or expanding an article propagate. -/
def handleEvent (cfg : Config) (abbrs : AbbrTable) (e : Element) :
    Except Unit (List Item × AbbrTable) :=
  if e.tag = "description" then
    .ok ([.tag "copyright" (e.text.getD "")], abbrs)
  else if e.tag = "full_name" then
    let label := e.text.getD ""
    .ok ([.tag "label" label, .tag "uri" (quote label)], abbrs)
  else if e.tag = "xdxf" then
    .ok ([.tag "lang_to" (pyGet e "lang_to"), .tag "lang_from" (pyGet e "lang_from")], abbrs)
  else if e.tag = "abbreviations" then
    .ok ([], mkabbrs e)
  else if e.tag = "ar" then
    match textRender cfg abbrs e with
    | .error er => .error er
    | .ok txt =>
      match articleTitles e with
      | .error er => .error er
      | .ok titles =>
        if titles ≠ [] then
          .ok ([.content txt titles ARTICLE_CONTENT_TYPE], abbrs)
        else
          match tostring e with
          | .error er => .error er
          | .ok s => .ok ([.warn (XML_DECL ++ s)], abbrs)
  else .ok ([], abbrs)

/-- `XDXF.parse` over the sequence of element-closed events of `iterparse`
(every element of the document, in document order of its closing tag),
threading the abbreviation table and concatenating the yielded items. -/
def parseStream (cfg : Config) : AbbrTable → List Element → Except Unit (List Item)
  | _, [] => .ok []
  | abbrs, e :: rest =>
    match handleEvent cfg abbrs e with
    | .error er => .error er
    | .ok (items, abbrs') =>
      match parseStream cfg abbrs' rest with
      | .error er => .error er
      | .ok out => .ok (items ++ out)

/-- The base variant of claim C1: the element's own leading text followed by
the trailing texts of its `nu` children, in document order. -/
def nuTailStr : List Element → String
  | [] => ""
  | c :: cs => (if c.tag = "nu" then c.tail.getD "" else "") ++ nuTailStr cs

/-! ### Concrete inputs used by counterexamples and witnesses -/

/-- `<k>cat<opt> (feline)</opt></k>`: the title element of the spec's
running example. -/
def catTitleEl : Element :=
  ⟨"k", [], some "cat", [⟨"opt", [], some " (feline)", [], none⟩], none⟩

/-- `<k>a<opt/></k>`: a title element whose single optional segment has no
text; choosing it makes `_mktitle` evaluate `'a' + None`. -/
def optNoneTitleEl : Element :=
  ⟨"k", [], some "a", [⟨"opt", [], none, [], none⟩], none⟩

/-- `<k>cat<nu/>1<opt> (feline)</opt></k>`: a `nu` child whose tail `"1"`
is appended into every variant between the leading text and the optional
segment. -/
def nuTitleEl : Element :=
  ⟨"k", [], some "cat",
   [⟨"nu", [], none, [], some "1"⟩, ⟨"opt", [], some " (feline)", [], none⟩], none⟩

/-- `<ar><k>cat<opt> (feline)</opt></k><k>dog</k></ar>`: an article with two
title elements. -/
def sampleArticle : Element :=
  ⟨"ar", [], none, [catTitleEl, ⟨"k", [], some "dog", [], none⟩], none⟩

/-! ### Spec-side variant formulas (claim C4) -/

/-- The variant-building rule exactly as claim C4 words it: start from the
title element's own text and, for each `opt` child in document order, append
its text exactly when its index is chosen, and its trailing text always —
no other child contributes. -/
def claimC4VariantGo (incl : List Nat) : List Element → Nat → String → String
  | [], _, acc => acc
  | c :: rest, i, acc =>
    if c.tag = "opt" then
      claimC4VariantGo incl rest (i + 1)
        (acc ++ (if i ∈ incl then c.text.getD "" else "") ++ c.tail.getD "")
    else claimC4VariantGo incl rest i acc

/-- Claim C4's formula for a whole title element. -/
def claimC4Variant (k : Element) (incl : List Nat) : String :=
  claimC4VariantGo incl k.children 0 (k.text.getD "")

/-- The amended rule: walk all children in document order, appending a `nu`
child's trailing text, and for an `opt` child its text exactly when chosen
plus its trailing text always. -/
def amendedVariantGo (incl : List Nat) : List Element → Nat → String → String
  | [], _, acc => acc
  | c :: rest, i, acc =>
    if c.tag = "nu" then
      amendedVariantGo incl rest i (acc ++ c.tail.getD "")
    else if c.tag = "opt" then
      amendedVariantGo incl rest (i + 1)
        (acc ++ (if i ∈ incl then c.text.getD "" else "") ++ c.tail.getD "")
    else
      amendedVariantGo incl rest i acc

/-- The amended formula for a whole title element. -/
def amendedVariant (k : Element) (incl : List Nat) : String :=
  amendedVariantGo incl k.children 0 (k.text.getD "")

/-- `<su>x</su>` with no attributes. -/
def suEl : Element := ⟨"su", [], some "x", [], none⟩

/-- `<tr>x</tr>` with no attributes. -/
def trEl : Element := ⟨"tr", [], some "x", [], none⟩

/-! ### Collected title tails (claim C8) -/

/-- Plain concatenation of the trailing texts of a list of elements, in
order (the claim's wording of the collected title tails). -/
def joinTails : List Element → String
  | [] => ""
  | k :: ks => k.tail.getD "" ++ joinTails ks

/-- The concatenated tails of the `k` children of an article root. -/
def kTailsJoin (e : Element) : String :=
  joinTails (kChildren e)

/-- `<ar>x<k>t</k> y</ar>` rendered with title stripping: the `k` tail is
`" y"`. -/
def stripArticleEl : Element :=
  ⟨"ar", [], some "x", [⟨"k", [], some "t", [], some " y"⟩], none⟩

/-! ### Abbreviations sample (claim C2) -/

/-- The `abbreviations` block
`<abbreviations><abr_def><k>a</k><v>expansion</v></abr_def></abbreviations>`:
one definition with key text `"a"` and value text `"expansion"`, the value
element having no child elements. -/
def abbrBlockEl : Element :=
  ⟨"abbreviations", [], none,
   [⟨"abr_def", [], none,
     [⟨"k", [], some "a", [], none⟩,
      ⟨"v", [], some "expansion", [], none⟩], none⟩], none⟩

/-- `<ar><k>a</k></ar>`. -/
def c3ArticleEl : Element :=
  ⟨"ar", [], none, [⟨"k", [], some "a", [], none⟩], none⟩

/-! ### Body erasure (claim C9) -/

/-- Erase the rendered body of a `Content` item, keeping everything the
transformation step must not influence. -/
def stripBody : Item → Item
  | .content _ ks ct => .content "" ks ct
  | i => i

/-- `<ar><kref/></ar>` with empty leading text: an article with zero `k`
elements whose transformation gives the `kref` an `href` of `None`. -/
def krefArticleEl : Element :=
  ⟨"ar", [], some "", [⟨"kref", [], none, [], none⟩], none⟩

/-! ### Definedness predicates (claim C6) -/
mutual

/-- Every node of the tree has `some` text and only `some` attribute
values: the sufficient condition under which the parse pipeline cannot
raise. -/
def definedTree (e : Element) : Bool :=
  match e with
  | ⟨_, attrib, text, children, _⟩ =>
    text.isSome && attrib.all (fun kv => kv.2.isSome) && definedList children

def definedList : List Element → Bool
  | [] => true
  | c :: cs => definedTree c && definedList cs

end

/-- Every value in the abbreviation table is a present string. -/
def definedVals (ab : AbbrTable) : Bool :=
  ab.all (fun kv => kv.2.isSome)

/-- Items derived from one article (a `Content` record or the warning for a
title-less article). -/
def isArticleItem : Item → Bool
  | .content _ _ _ => true
  | .warn _ => true
  | .tag _ _ => false

/-- `<ar><k>a</k><kref/></ar>`: a perfectly well-formed article whose
`kref` child has no text. -/
def c6ArticleEl : Element :=
  ⟨"ar", [], none,
   [⟨"k", [], some "a", [], none⟩, ⟨"kref", [], none, [], none⟩], none⟩

/-- `<ar><k>w</k></ar>` with every text present. -/
def definedArticleEl : Element :=
  ⟨"ar", [], some "", [⟨"k", [], some "w", [], some ""⟩], some ""⟩

/-! ### Theorems: basic lemmas -/
theorem mapExcept_length {f : α → Except Unit β} :
    ∀ {xs : List α} {ys : List β}, mapExcept f xs = .ok ys → ys.length = xs.length := by
  intro xs
  induction xs with
  | nil => intro ys h; simp only [mapExcept] at h; cases h; rfl
  | cons a as ih =>
    intro ys h
    simp only [mapExcept] at h
    cases hfa : f a with
    | error e => rw [hfa] at h; cases h
    | ok b =>
      rw [hfa] at h
      cases hrest : mapExcept f as with
      | error e => rw [hrest] at h; cases h
      | ok bs => rw [hrest] at h; cases h; simp [ih hrest]

theorem mapExcept_append_ok {f : α → Except Unit β} :
    ∀ {xs zs : List α} {ys : List β}, mapExcept f (xs ++ zs) = .ok ys →
      ∃ ys₁ ys₂, mapExcept f xs = .ok ys₁ ∧ mapExcept f zs = .ok ys₂ ∧ ys = ys₁ ++ ys₂ := by
  intro xs
  induction xs with
  | nil => intro zs ys h; exact ⟨[], ys, rfl, h, rfl⟩
  | cons a as ih =>
    intro zs ys h
    simp only [List.cons_append, mapExcept, List.append_eq] at h
    cases hfa : f a with
    | error e => rw [hfa] at h; cases h
    | ok b =>
      rw [hfa] at h
      cases hrest : mapExcept f (as ++ zs) with
      | error e => rw [hrest] at h; cases h
      | ok bs =>
        rw [hrest] at h
        cases h
        obtain ⟨ys₁, ys₂, h1, h2, rfl⟩ := ih hrest
        exact ⟨b :: ys₁, ys₂, by simp [mapExcept, hfa, h1], h2, rfl⟩

theorem mapExcept_ok_of_all {f : α → Except Unit β} :
    ∀ {xs : List α}, (∀ x ∈ xs, ∃ y, f x = .ok y) →
      ∃ ys, mapExcept f xs = .ok ys := by
  intro xs
  induction xs with
  | nil => intro _; exact ⟨[], rfl⟩
  | cons a as ih =>
    intro h
    obtain ⟨b, hb⟩ := h a (by simp)
    obtain ⟨bs, hbs⟩ := ih (fun x hx => h x (by simp [hx]))
    exact ⟨b :: bs, by simp [mapExcept, hb, hbs]⟩

theorem mapExcept_forall₂ {f : α → Except Unit β} :
    ∀ {xs : List α} {ys : List β}, mapExcept f xs = .ok ys →
      List.Forall₂ (fun x y => f x = .ok y) xs ys := by
  intro xs
  induction xs with
  | nil => intro ys h; cases h; exact .nil
  | cons a as ih =>
    intro ys h
    simp only [mapExcept] at h
    cases hfa : f a with
    | error e => rw [hfa] at h; cases h
    | ok b =>
      rw [hfa] at h
      cases hrest : mapExcept f as with
      | error e => rw [hrest] at h; cases h
      | ok bs => rw [hrest] at h; cases h; exact .cons hfa (ih hrest)

/-! ### Combination lemmas -/
theorem combosFrom_zero (l : List Nat) : combosFrom l 0 = [[]] := by
  cases l <;> rfl

theorem combosFrom_nil_succ (j : Nat) : combosFrom [] (j + 1) = [] := rfl

theorem combosFrom_length : ∀ (l : List Nat) (j : Nat),
    (combosFrom l j).length = l.length.choose j := by
  intro l
  induction l with
  | nil => intro j; cases j <;> simp [combosFrom]
  | cons x xs ih =>
    intro j
    cases j with
    | zero => simp [combosFrom]
    | succ j => simp [combosFrom, ih, Nat.choose_succ_succ, Nat.add_comm]

theorem combosFrom_eq_nil_of_lt : ∀ (l : List Nat) (j : Nat),
    l.length < j → combosFrom l j = [] := by
  intro l
  induction l with
  | nil => intro j h; cases j with
    | zero => omega
    | succ j => rfl
  | cons x xs ih =>
    intro j h
    cases j with
    | zero => simp at h
    | succ j =>
      simp only [combosFrom]
      rw [ih j (by simpa using h), ih (j + 1) (by simp at h; omega)]
      rfl

theorem combosFrom_full : ∀ (l : List Nat), combosFrom l l.length = [l] := by
  intro l
  induction l with
  | nil => rfl
  | cons x xs ih =>
    simp only [List.length_cons, combosFrom, ih]
    rw [combosFrom_eq_nil_of_lt xs (xs.length + 1) (by omega)]
    rfl

theorem length_of_mem_combosFrom : ∀ (l : List Nat) (j : Nat) (c : List Nat),
    c ∈ combosFrom l j → c.length = j := by
  intro l
  induction l with
  | nil => intro j c h; cases j with
    | zero => simp [combosFrom] at h; simp [h]
    | succ j => cases h
  | cons x xs ih =>
    intro j c h
    cases j with
    | zero => simp [combosFrom] at h; simp [h]
    | succ j =>
      simp only [combosFrom, List.mem_append, List.mem_map] at h
      rcases h with ⟨c', hc', rfl⟩ | h
      · simp [ih j c' hc']
      · exact ih (j + 1) c h

theorem list_range_map_sum (f : Nat → Nat) : ∀ (m : Nat),
    ((List.range m).map f).sum = ∑ j ∈ Finset.range m, f j := by
  intro m
  induction m with
  | zero => simp
  | succ m ih => rw [List.range_succ, Finset.sum_range_succ]; simp [ih]

theorem allCombos_length (n : Nat) : (allCombos n).length = 2 ^ n := by
  unfold allCombos
  rw [List.length_flatMap]
  have : (List.map (List.length ∘ fun j => combosFrom (List.range n) j) (List.range (n + 1)))
      = (List.range (n + 1)).map fun j => n.choose j := by
    apply List.map_congr_left
    intro j _
    simp [combosFrom_length]
  rw [this, list_range_map_sum, Nat.sum_range_choose]

/-! ### String helpers -/
theorem str_append_assoc (a b c : String) : (a ++ b) ++ c = a ++ (b ++ c) := by
  cases a with
  | mk la =>
    cases b with
    | mk lb =>
      cases c with
      | mk lc =>
        show String.mk ((la ++ lb) ++ lc) = String.mk (la ++ (lb ++ lc))
        rw [List.append_assoc]

theorem truthy_false_getD {t : Option String} (h : truthy t = false) : t.getD "" = "" := by
  cases t with
  | none => rfl
  | some s =>
    simp only [truthy, ne_eq, decide_not, Bool.not_eq_false', decide_eq_true_eq] at h
    simp [h]

/-! ### Lemmas about `_mktitle` -/
theorem appendStr_getD (t : Option String) (s : String) :
    (appendStr t s).getD "" = t.getD "" ++ s := by
  unfold appendStr
  cases h : truthy t with
  | true => simp
  | false => simp [truthy_false_getD h, String.empty_append]

theorem appendOpt_ok_getD {t s v : Option String} (h : appendOpt t s = .ok v) :
    v.getD "" = t.getD "" ++ s.getD "" := by
  unfold appendOpt at h
  cases ht : truthy t with
  | true =>
    rw [ht] at h
    cases s with
    | none => simp at h
    | some s' =>
      simp only [if_true] at h
      cases h
      simp
  | false =>
    rw [ht] at h
    simp only [Bool.false_eq_true, if_false] at h
    cases h
    simp [truthy_false_getD ht, String.empty_append]

theorem appendOpt_isSome_ok (t : Option String) {s : Option String} (hs : s.isSome) :
    ∃ v, appendOpt t s = .ok v := by
  unfold appendOpt
  cases s with
  | none => cases hs
  | some s' => cases truthy t <;> simp

theorem mktitleGo_noOpt {cs : List Element} (hcs : ∀ c ∈ cs, c.tag ≠ "opt") :
    ∀ (incl : List Nat) (i : Nat) (t : Option String),
      ∃ v, mktitleGo incl cs i t = .ok v ∧ v.getD "" = t.getD "" ++ nuTailStr cs := by
  induction cs with
  | nil => intro incl i t; exact ⟨t, rfl, by simp [nuTailStr, String.append_empty]⟩
  | cons c rest ih =>
    intro incl i t
    have hc : c.tag ≠ "opt" := hcs c (by simp)
    have hrest : ∀ c ∈ rest, c.tag ≠ "opt" := fun c hm => hcs c (by simp [hm])
    simp only [mktitleGo, if_neg hc]
    set title := if c.tag = "nu" ∧ truthy c.tail then appendStr t (c.tail.getD "") else t with htitle
    obtain ⟨v, hv, hgd⟩ := ih hrest incl i title
    refine ⟨v, hv, ?_⟩
    rw [hgd, nuTailStr, ← str_append_assoc]
    congr 1
    rw [htitle]
    by_cases hnu : c.tag = "nu" ∧ truthy c.tail
    · rw [if_pos hnu, appendStr_getD, if_pos hnu.1]
    · rw [if_neg hnu]
      by_cases htag : c.tag = "nu"
      · have : truthy c.tail = false := by
          rcases Bool.eq_false_or_eq_true (truthy c.tail) with h | h
          · exact absurd ⟨htag, h⟩ hnu
          · exact h
        rw [if_pos htag, truthy_false_getD this, String.append_empty]
      · rw [if_neg htag, String.append_empty]

theorem countOpts_zero_noOpt {k : Element} (h : countOpts k = 0) :
    ∀ c ∈ k.children, c.tag ≠ "opt" := by
  intro c hc
  unfold countOpts at h
  rw [List.length_eq_zero] at h
  have := List.filter_eq_nil_iff.mp h c hc
  simpa using this

/-! ### Claim C1 -/

/-- Counterexample to claim C1 as stated: for the title element
`<k>a<opt/></k>` (one optional segment, so the claim demands exactly
`2^1 = 2` variants) title expansion does not produce two variants — it
raises a `TypeError` while building the variant that includes the
segment, because the segment has no text. -/
theorem c1_counterexample : titlesForK optNoneTitleEl = .error () := rfl

/-- C1 (amended): when title expansion of a `k` element with `n` optional
segments completes without raising, it produces exactly `2^n` variants
(duplicates permitted and not collapsed), and when `n = 0` the single
variant is the element's own leading text followed by the trailing text of
its `nu` children. -/
theorem c1_variant_count (k : Element) (ts : List (Option String))
    (h : titlesForK k = .ok ts) :
    ts.length = 2 ^ countOpts k ∧
    (countOpts k = 0 →
      ∃ v, ts = [v] ∧ v.getD "" = k.text.getD "" ++ nuTailStr k.children) := by
  by_cases hn : countOpts k = 0
  · rw [titlesForK, if_neg (not_ne_iff.mpr hn)] at h
    obtain ⟨v, hv, hgd⟩ :=
      mktitleGo_noOpt (countOpts_zero_noOpt hn) [] 0 k.text
    rw [show mktitle k [] = mktitleGo [] k.children 0 k.text from rfl] at h
    rw [hv] at h
    cases h
    exact ⟨by simp [hn], fun _ => ⟨v, rfl, hgd⟩⟩
  · rw [titlesForK, if_pos hn] at h
    refine ⟨?_, fun h0 => absurd h0 hn⟩
    rw [mapExcept_length h, allCombos_length]

/-- Witness: the `cat`/`cat (feline)` element has one optional segment and
its expansion has exactly `2^1` entries. -/
theorem c1_variant_count_witness :
    titlesForK catTitleEl = .ok [some "cat", some "cat (feline)"] ∧
    ([some "cat", some "cat (feline)"] : List (Option String)).length =
      2 ^ countOpts catTitleEl :=
  ⟨rfl, (c1_variant_count catTitleEl _ rfl).1⟩

/-! ### Claim C10 -/
theorem mapExcept_flatMap_ok {f : β → Except Unit γ} {g : α → List β} :
    ∀ {xs : List α} {ys : List γ}, mapExcept f (xs.flatMap g) = .ok ys →
      ∃ yss, ys = yss.flatten ∧
        List.Forall₂ (fun x bx => mapExcept f (g x) = .ok bx) xs yss := by
  intro xs
  induction xs with
  | nil =>
    intro ys h
    simp only [List.flatMap_nil, mapExcept] at h
    cases h
    exact ⟨[], rfl, .nil⟩
  | cons a as ih =>
    intro ys h
    rw [List.flatMap_cons] at h
    obtain ⟨y1, y2, h1, h2, rfl⟩ := mapExcept_append_ok h
    obtain ⟨yss, rfl, hf⟩ := ih h2
    exact ⟨y1 :: yss, by simp, .cons h1 hf⟩

theorem mapExcept_singleton {f : α → Except Unit β} {x : α} {ys : List β}
    (h : mapExcept f [x] = .ok ys) : ∃ y, f x = .ok y ∧ ys = [y] := by
  simp only [mapExcept] at h
  cases hfx : f x with
  | error e => rw [hfx] at h; cases h
  | ok y => rw [hfx] at h; cases h; exact ⟨y, rfl, rfl⟩

theorem forall₂_concat_right {R : α → β → Prop} :
    ∀ {xs : List α} {x : α} {ys : List β}, List.Forall₂ R (xs ++ [x]) ys →
      ∃ ys₁ y, ys = ys₁ ++ [y] ∧ List.Forall₂ R xs ys₁ ∧ R x y := by
  intro xs
  induction xs with
  | nil =>
    intro x ys h
    cases h with
    | cons hR htail => cases htail; exact ⟨[], _, rfl, .nil, hR⟩
  | cons a as ih =>
    intro x ys h
    cases h with
    | cons hR htail =>
      obtain ⟨ys₁, y, rfl, hf, hx⟩ := ih htail
      exact ⟨_ :: ys₁, y, rfl, .cons hR hf, hx⟩

/-- C10: for a title element with `n ≥ 1` optional segments the variant
list decomposes into `n + 1` consecutive blocks, the block at position `j`
holding exactly the variants of the size-`j` combinations (so variants are
ordered by increasing number of included segments); the first entry is the
variant including no optional segment and the last entry the variant
including all of them.  For an article, the key list is the concatenation
of the per-`k`-element variant lists in document order, so variants of an
earlier `k` element precede those of a later one. -/
theorem c10_variant_order :
    (∀ k ts, titlesForK k = .ok ts → 1 ≤ countOpts k →
      (∃ blocks : List (List (Option String)),
        ts = blocks.flatten ∧
        List.Forall₂
          (fun j bj =>
            mapExcept (mktitle k) (combosFrom (List.range (countOpts k)) j) = .ok bj)
          (List.range (countOpts k + 1)) blocks) ∧
      (∀ j c, c ∈ combosFrom (List.range (countOpts k)) j → c.length = j) ∧
      (∃ v, mktitle k [] = .ok v ∧ ts.head? = some v) ∧
      (∃ w, mktitle k (List.range (countOpts k)) = .ok w ∧ ts.getLast? = some w)) ∧
    (∀ ar ks, articleTitles ar = .ok ks →
      ∃ tss, mapExcept titlesForK (kChildren ar) = .ok tss ∧ ks = tss.flatten) := by
  constructor
  · intro k ts h hn
    rw [titlesForK, if_pos (by omega)] at h
    rw [allCombos] at h
    have hblocks := mapExcept_flatMap_ok h
    refine ⟨hblocks, fun j c hc => length_of_mem_combosFrom _ j c hc, ?_, ?_⟩
    · obtain ⟨yss, rfl, hf⟩ := hblocks
      rw [List.range_succ_eq_map] at hf
      cases hf with
      | cons h0 htail =>
        replace h0 : mapExcept (mktitle k)
            (combosFrom (List.range (countOpts k)) 0) = .ok _ := h0
        rw [combosFrom_zero] at h0
        obtain ⟨v, hv, rfl⟩ := mapExcept_singleton h0
        exact ⟨v, hv, by simp⟩
    · obtain ⟨yss, rfl, hf⟩ := hblocks
      rw [List.range_succ] at hf
      obtain ⟨ys₁, bn, rfl, _, hbn⟩ := forall₂_concat_right hf
      replace hbn : mapExcept (mktitle k)
          (combosFrom (List.range (countOpts k)) (countOpts k)) = .ok bn := hbn
      rw [show combosFrom (List.range (countOpts k)) (countOpts k)
            = [List.range (countOpts k)] by
          have := combosFrom_full (List.range (countOpts k))
          rwa [List.length_range] at this] at hbn
      obtain ⟨w, hw, rfl⟩ := mapExcept_singleton hbn
      refine ⟨w, hw, ?_⟩
      rw [List.flatten_append]
      simp
  · intro ar ks h
    rw [articleTitles] at h
    cases hm : mapExcept titlesForK (kChildren ar) with
    | error e => rw [hm] at h; cases h
    | ok tss => rw [hm] at h; cases h; exact ⟨tss, rfl, rfl⟩

/-- Witness for C10: concrete instantiation at the `cat` title element and a
two-title article. -/
theorem c10_variant_order_witness :
    (∃ v, mktitle catTitleEl [] = .ok v ∧
        ([some "cat", some "cat (feline)"] : List (Option String)).head? = some v) ∧
    (∃ tss, mapExcept titlesForK (kChildren sampleArticle) = .ok tss ∧
        ([some "cat", some "cat (feline)", some "dog"] : List (Option String)) =
          tss.flatten) :=
  ⟨(c10_variant_order.1 catTitleEl _ rfl (by decide)).2.2.1,
   c10_variant_order.2 sampleArticle _ rfl⟩

/-! ### Claim C4 -/
theorem mktitleGo_ok_getD {incl : List Nat} :
    ∀ (cs : List Element) (i : Nat) (t : Option String) {v : Option String},
      mktitleGo incl cs i t = .ok v →
      v.getD "" = amendedVariantGo incl cs i (t.getD "") := by
  intro cs
  induction cs with
  | nil =>
    intro i t v h
    cases h
    rfl
  | cons c rest ih =>
    intro i t v h
    simp only [mktitleGo] at h
    by_cases hopt : c.tag = "opt"
    · have hnotnu : ¬ (c.tag = "nu" ∧ truthy c.tail) := by
        rintro ⟨hnu, -⟩
        rw [hopt] at hnu
        exact absurd hnu (by decide)
      rw [if_neg hnotnu, if_pos hopt] at h
      by_cases hin : i ∈ incl
      · rw [if_pos hin] at h
        cases happ : appendOpt t c.text with
        | error e => rw [happ] at h; cases h
        | ok t2 =>
          rw [happ] at h
          have ht3 :
              (if truthy c.tail then appendStr t2 (c.tail.getD "") else t2).getD ""
                = t2.getD "" ++ c.tail.getD "" := by
            cases htail : truthy c.tail with
            | true => rw [if_pos rfl, appendStr_getD]
            | false =>
              rw [if_neg (by simp [htail]), truthy_false_getD htail,
                String.append_empty]
          rw [ih _ _ h, ht3, appendOpt_ok_getD happ,
            amendedVariantGo, if_neg (by rw [hopt]; decide), if_pos hopt,
            if_pos hin]
      · rw [if_neg hin] at h
        have ht3 :
            (if truthy c.tail then appendStr t (c.tail.getD "") else t).getD ""
              = t.getD "" ++ c.tail.getD "" := by
          cases htail : truthy c.tail with
          | true => rw [if_pos rfl, appendStr_getD]
          | false =>
            rw [if_neg (by simp [htail]), truthy_false_getD htail,
              String.append_empty]
        rw [ih _ _ h, ht3,
          amendedVariantGo, if_neg (by rw [hopt]; decide), if_pos hopt,
          if_neg hin, String.append_empty]
    · rw [if_neg hopt] at h
      by_cases hnu : c.tag = "nu"
      · rw [ih _ _ h, amendedVariantGo, if_pos hnu]
        congr 1
        by_cases htr : truthy c.tail
        · rw [if_pos ⟨hnu, htr⟩, appendStr_getD]
        · have hfalse : truthy c.tail = false := by simpa using htr
          rw [if_neg (by rintro ⟨-, h2⟩; exact htr h2),
            truthy_false_getD hfalse, String.append_empty]
      · rw [ih _ _ h, amendedVariantGo, if_neg hnu, if_neg hopt]
        congr 1
        rw [if_neg (by rintro ⟨h1, -⟩; exact hnu h1)]

/-- Counterexample to claim C4 as stated: in
`<k>cat<nu/>1<opt> (feline)</opt></k>` the code interleaves the `nu` child's
trailing text `"1"` into the variant, so the empty combination yields
`"cat1"`, while the claim's rule (own text, then `opt` children only)
yields `"cat"`. -/
theorem c4_counterexample :
    mktitle nuTitleEl [] = .ok (some "cat1") ∧
    claimC4Variant nuTitleEl [] = "cat" ∧
    (some "cat1" : Option String).getD "" ≠ claimC4Variant nuTitleEl [] :=
  ⟨rfl, rfl, by decide⟩

/-- C4 (amended): a variant is built by walking all children in document
order, starting from the element's own text, appending a `nu` child's
trailing text wherever present, and for each `opt` child appending its text
exactly when its index is chosen plus its trailing text regardless of the
choice; the claim's example still holds — title text `"cat"` with one
optional segment `" (feline)"` and empty tails yields exactly the variants
`"cat"` and `"cat (feline)"`. -/
theorem c4_variant_construction :
    (∀ k incl v, mktitle k incl = .ok v → v.getD "" = amendedVariant k incl) ∧
    titlesForK catTitleEl = .ok [some "cat", some "cat (feline)"] :=
  ⟨fun k incl v h => mktitleGo_ok_getD k.children 0 k.text h, rfl⟩

/-- Witness for C4 (amended) at the `nu`-bearing title element. -/
theorem c4_variant_construction_witness :
    (some "cat1" : Option String).getD "" = amendedVariant nuTitleEl [] :=
  c4_variant_construction.1 nuTitleEl [] _ rfl

/-! ### Claim C7 -/
theorem lookup_setAttr_self (l : List (String × Option String)) (k : String)
    (v : Option String) : List.lookup k (setAttr l k v) = some v := by
  induction l with
  | nil => simp [setAttr, List.lookup]
  | cons kv rest ih =>
    obtain ⟨k', v'⟩ := kv
    by_cases h : k' = k
    · subst h
      simp [setAttr, List.lookup]
    · simp only [setAttr, if_neg h, List.lookup]
      have hbeq : (k == k') = false := by simpa using Ne.symm h
      rw [hbeq]
      exact ih

/-- Counterexample to claim C7 as stated: the dedicated `su` handler sets
the tag to `div` (a block-level container), not to an inline `span`. -/
theorem c7_counterexample :
    (transformNode [] suEl).tag = "div" ∧ (transformNode [] suEl).tag ≠ "span" :=
  ⟨rfl, by decide⟩

/-- C7 (amended): among the visual tags rewritten to class-bearing
containers, `k` (by the default handler) and also `ar` and `su` (by their
dedicated handlers) become block-level `div` containers; every other such
tag becomes an inline `span`.  In all cases the container carries a
`class` attribute equal to the original tag name. -/
theorem c7_block_inline (ab : AbbrTable) (e : Element)
    (h : e.tag ∈ (["ar", "k", "opt", "nu", "pos", "tense", "tr", "dtrn",
                   "rref", "ex", "co", "su"] : List String)) :
    ((transformNode ab e).tag
        = if e.tag ∈ (["ar", "k", "su"] : List String) then "div" else "span") ∧
    List.lookup "class" (transformNode ab e).attrib = some (some e.tag) := by
  simp only [List.mem_cons, List.not_mem_nil, or_false] at h
  rcases h with h | h | h | h | h | h | h | h | h | h | h | h <;>
    simp [transformNode, default_tag_handler, h, VISUAL_TAGS, BLOCK_TAGS,
      lookup_setAttr_self,
      show pyLower "ar" = "ar" from rfl, show pyLower "k" = "k" from rfl,
      show pyLower "opt" = "opt" from rfl, show pyLower "nu" = "nu" from rfl,
      show pyLower "pos" = "pos" from rfl, show pyLower "tense" = "tense" from rfl,
      show pyLower "tr" = "tr" from rfl, show pyLower "dtrn" = "dtrn" from rfl,
      show pyLower "rref" = "rref" from rfl, show pyLower "ex" = "ex" from rfl,
      show pyLower "co" = "co" from rfl, show pyLower "su" = "su" from rfl]

/-- Witness for C7 (amended): the visual tag `tr` becomes an inline `span`
with `class="tr"`. -/
theorem c7_block_inline_witness :
    (transformNode [] trEl).tag = "span" ∧
    List.lookup "class" (transformNode [] trEl).attrib = some (some "tr") := by
  have h := c7_block_inline [] trEl (by decide)
  simpa using h

/-! ### Claim C8 -/
theorem kTailConcat_eq_joinTails : ∀ ks : List Element,
    kTailConcat ks = joinTails ks := by
  intro ks
  induction ks with
  | nil => rfl
  | cons k rest ih =>
    rw [kTailConcat, joinTails, ih]
    congr 1
    cases h : truthy k.tail with
    | true => rfl
    | false => rw [truthy_false_getD h]; simp

/-- Counterexample to claim C8 as stated: the collected tail `" y"` is not
prepended unchanged — `str.lstrip()` removes its leading whitespace first,
so the root text becomes `"yx"`, not `" yx"`. -/
theorem c8_counterexample :
    (stripTitles stripArticleEl).text = some "yx" ∧
    (stripTitles stripArticleEl).text ≠ some ((" y" : String) ++ "x") :=
  ⟨rfl, by decide⟩

/-- C8 (amended): with title stripping enabled, the tails of the `k`
children of the article root are concatenated in document order, the
concatenation is stripped of leading whitespace, and the result is
prepended to the root's own leading text; the `k` children are removed and
everything else about the root is unchanged. -/
theorem c8_strip_titles (e : Element) :
    (stripTitles e).children = e.children.filter (fun c => c.tag ≠ "k") ∧
    (stripTitles e).text = some (lstrip (kTailsJoin e) ++ e.text.getD "") ∧
    (stripTitles e).tag = e.tag ∧ (stripTitles e).attrib = e.attrib ∧
    (stripTitles e).tail = e.tail := by
  refine ⟨rfl, ?_, rfl, rfl, rfl⟩
  show (if truthy e.text then some (lstrip (kTailConcat (kChildren e)) ++ e.text.getD "")
        else some (lstrip (kTailConcat (kChildren e)))) = _
  rw [kTailConcat_eq_joinTails]
  cases h : truthy e.text with
  | true => rw [if_pos rfl]; rfl
  | false =>
    rw [if_neg (by simp [h]), truthy_false_getD h, String.append_empty]
    rfl

/-! ### Claim C2 -/

/-- C2: `_mkabbrs` registers nothing for a definition whose value element
carries plain text but no child elements, because the guard `if value:`
tests ElementTree truthiness — the number of child elements — rather than
presence or text.  The claim (and the evident intent: map each key's text
to the value's text) expects `"a" ↦ "expansion"` here. -/
theorem c2_mkabbrs_truthiness : mkabbrs abbrBlockEl = [] := rfl

/-! ### Claim C3 -/
theorem transformNode_children (ab : AbbrTable) (e : Element) :
    (transformNode ab e).children = e.children := by
  simp only [transformNode, default_tag_handler]
  split_ifs <;> rfl

theorem mem_iterPathsList : ∀ (cs : List Element) (i : Nat) (p : List Nat),
    p ∈ iterPathsList cs i → ∃ j q, p = j :: q ∧ i ≤ j := by
  intro cs
  induction cs with
  | nil => intro i p h; cases h
  | cons c rest ih =>
    intro i p h
    rw [iterPathsList] at h
    rcases List.mem_append.mp h with h | h
    · obtain ⟨q, _, rfl⟩ := List.mem_map.mp h
      exact ⟨i, q, rfl, Nat.le_refl i⟩
    · obtain ⟨j, q, rfl, hj⟩ := ih (i + 1) p h
      exact ⟨j, q, rfl, by omega⟩

/-- Structural induction over `Element` along the child relation. -/
theorem element_ind (P : Element → Prop)
    (step : ∀ e : Element, (∀ c ∈ e.children, P c) → P e) : ∀ e, P e
  | ⟨tag, attrib, text, children, tail⟩ =>
    step ⟨tag, attrib, text, children, tail⟩
      (fun c hc => element_ind P step c)
termination_by e => sizeOf e
decreasing_by
  have h1 := List.sizeOf_lt_of_mem hc
  simp only [Element.mk.sizeOf_spec]
  simp only [] at h1
  omega

theorem iterPathsList_nodup_of : ∀ (cs : List Element),
    (∀ c ∈ cs, (iterPaths c).Nodup) → ∀ i, (iterPathsList cs i).Nodup := by
  intro cs
  induction cs with
  | nil => intro _ i; simp [iterPathsList]
  | cons c rest ih =>
    intro h i
    rw [iterPathsList]
    apply List.Nodup.append
    · exact (h c (by simp)).map (fun a b hab => by simpa using hab)
    · exact ih (fun c hc => h c (by simp [hc])) (i + 1)
    · intro p hp hq
      obtain ⟨q, -, rfl⟩ := List.mem_map.mp hp
      obtain ⟨j, q', hpq, hj⟩ := mem_iterPathsList rest (i + 1) _ hq
      cases hpq
      omega

theorem count_eq_one_of_nodup_mem {l : List (List Nat)} {p : List Nat}
    (hn : l.Nodup) (hp : p ∈ l) : l.count p = 1 := by
  induction l with
  | nil => cases hp
  | cons a rest ih =>
    rw [List.nodup_cons] at hn
    rcases List.mem_cons.mp hp with rfl | hmem
    · rw [List.count_cons_self, List.count_eq_zero.mpr hn.1]
    · rw [List.count_cons_of_ne (by rintro rfl; exact hn.1 hmem)]
      exact ih hn.2 hmem

theorem iterPaths_nodup : ∀ e : Element, (iterPaths e).Nodup := by
  apply element_ind
  intro e ih
  cases e with
  | mk tag attrib text children tail =>
    rw [iterPaths]
    rw [List.nodup_cons]
    constructor
    · intro hmem
      obtain ⟨j, q, hpq, -⟩ := mem_iterPathsList children 0 [] hmem
      cases hpq
    · exact iterPathsList_nodup_of children ih 0

/-- Counterexample to claim C3 as stated: during `_text`'s transformation of
`<ar><k>a</k></ar>` a handler is dispatched on the root twice — once by the
explicit `_transform_element(element)` call and once more because
`element.iter()` yields the root itself first — so the root is not handled
exactly once. -/
theorem c3_counterexample :
    (dispatchLog c3ArticleEl).count ([] : List Nat) = 2 ∧
    (dispatchLog c3ArticleEl).count ([] : List Nat) ≠ 1 :=
  ⟨by decide, by decide⟩

/-- C3 (amended): a handler is looked up by the element's lowercased tag
name — the default handler when no named handler is registered — and during
transformation of an article tree every proper descendant is dispatched
exactly once, in pre-order, while the root is dispatched twice: once by the
explicit root call and once as the first element yielded by the traversal. -/
theorem c3_dispatch (ab : AbbrTable) (e : Element) :
    (dispatchLog e).count ([] : List Nat) = 2 ∧
    (∀ p ∈ iterPaths e, p ≠ [] → (dispatchLog e).count p = 1) ∧
    (pyLower e.tag ∉ (["ar", "c", "iref", "kref", "su", "def", "abr"] : List String) →
      transformNode ab e = default_tag_handler e) := by
  refine ⟨?_, ?_, ?_⟩
  · rw [dispatchLog, List.count_cons_self]
    cases e with
    | mk tag attrib text children tail =>
      rw [iterPaths, List.count_cons_self]
      have hz : (iterPathsList children 0).count ([] : List Nat) = 0 :=
        List.count_eq_zero.mpr (fun hmem => by
          obtain ⟨j, q, hpq, -⟩ := mem_iterPathsList children 0 [] hmem
          cases hpq)
      rw [hz]
  · intro p hp hne
    rw [dispatchLog, List.count_cons_of_ne hne]
    exact count_eq_one_of_nodup_mem (iterPaths_nodup e) hp
  · intro hno
    rw [transformNode]
    simp only [List.mem_cons, List.not_mem_nil, or_false, not_or] at hno
    obtain ⟨h1, h2, h3, h4, h5, h6, h7⟩ := hno
    rw [if_neg h1, if_neg h2, if_neg h3, if_neg h4, if_neg h5, if_neg h6,
      if_neg h7]

/-- Witness for C3 (amended): concrete dispatch counts for
`<ar><k>a</k></ar>` and the fallthrough to the default handler on a `k`
element. -/
theorem c3_dispatch_witness :
    (dispatchLog c3ArticleEl).count ([0] : List Nat) = 1 ∧
    transformNode [] trEl = default_tag_handler trEl :=
  ⟨(c3_dispatch [] c3ArticleEl).2.1 [0] (by decide) (by decide),
   (c3_dispatch [] trEl).2.2 (by decide)⟩

/-! ### Claim C9 -/

/-- What a successful article step must look like: the body renders, the
titles of the untouched element are computed, and the item is the single
`Content` (non-empty titles) or the single warning (no titles); the
abbreviation table is returned unchanged. -/
theorem handleEvent_ar {cfg : Config} {ab : AbbrTable} {e : Element}
    {out : List Item × AbbrTable} (he : e.tag = "ar")
    (h : handleEvent cfg ab e = .ok out) :
    ∃ txt titles, textRender cfg ab e = .ok txt ∧ articleTitles e = .ok titles ∧
      out.2 = ab ∧
      ((titles ≠ [] ∧ out.1 = [.content txt titles ARTICLE_CONTENT_TYPE]) ∨
        (titles = [] ∧ ∃ s, tostring e = .ok s ∧
          out.1 = [.warn (XML_DECL ++ s)])) := by
  rw [handleEvent, if_neg (by rw [he]; decide), if_neg (by rw [he]; decide),
    if_neg (by rw [he]; decide), if_neg (by rw [he]; decide), if_pos he] at h
  split at h
  · cases h
  · next txt htxt =>
    split at h
    · cases h
    · next titles hts =>
      split at h
      · next hne =>
        cases h
        exact ⟨txt, titles, htxt, hts, rfl, .inl ⟨hne, rfl⟩⟩
      · next hne =>
        split at h
        · cases h
        · next s hs =>
          cases h
          exact ⟨txt, titles, htxt, hts, rfl,
            .inr ⟨by simpa using hne, s, hs, rfl⟩⟩

/-- C9: the transformation-and-serialization step operates on a deep copy,
so the keys of the emitted record are the title expansion of the untouched
original tree: across any two configurations and abbreviation tables the
article step yields the same items up to the rendered body, it never
touches the abbreviation table, and every emitted key list is exactly
`articleTitles` of the original element. -/
theorem c9_transform_frame (e : Element) (he : e.tag = "ar")
    (cfg cfg' : Config) (ab ab' : AbbrTable) (out out' : List Item × AbbrTable)
    (h : handleEvent cfg ab e = .ok out) (h' : handleEvent cfg' ab' e = .ok out') :
    out.1.map stripBody = out'.1.map stripBody ∧
    out.2 = ab ∧ out'.2 = ab' ∧
    (∀ txt ks ct, Item.content txt ks ct ∈ out.1 → articleTitles e = .ok ks) := by
  obtain ⟨txt, titles, htxt, hts, hab, hcase⟩ := handleEvent_ar he h
  obtain ⟨txt', titles', htxt', hts', hab', hcase'⟩ := handleEvent_ar he h'
  have heq : titles' = titles := by rw [hts] at hts'; cases hts'; rfl
  subst heq
  rcases hcase with ⟨hne, hout⟩ | ⟨hnil, s, hs, hout⟩ <;>
    rcases hcase' with ⟨hne', hout'⟩ | ⟨hnil', s', hs', hout'⟩
  · refine ⟨by rw [hout, hout']; rfl, hab, hab', ?_⟩
    intro txt2 ks ct hmem
    rw [hout] at hmem
    simp only [List.mem_singleton] at hmem
    cases hmem
    exact hts
  · exact absurd hnil' hne
  · exact absurd hnil hne'
  · have hseq : s' = s := by rw [hs] at hs'; cases hs'; rfl
    subst hseq
    refine ⟨by rw [hout, hout'], hab, hab', ?_⟩
    intro txt2 ks ct hmem
    rw [hout] at hmem
    simp at hmem

/-- Witness for C9: the sample article processed under both option settings
and two different abbreviation tables yields identical items up to the
rendered body. -/
theorem c9_transform_frame_witness :
    ∃ o o' : List Item × AbbrTable,
      handleEvent ⟨false, false⟩ [] sampleArticle = .ok o ∧
      handleEvent ⟨true, true⟩ [(some "x", some "y")] sampleArticle = .ok o' ∧
      o.1.map stripBody = o'.1.map stripBody :=
  ⟨_, _, rfl, rfl,
   (c9_transform_frame sampleArticle rfl ⟨false, false⟩ ⟨true, true⟩
     [] [(some "x", some "y")] _ _ rfl rfl).1⟩

/-! ### Claim C5 -/
theorem articleTitles_no_k {e : Element} (h : kChildren e = []) :
    articleTitles e = .ok [] := by
  rw [articleTitles, h]
  rfl

theorem parseStream_cons_ok {cfg : Config} {ab : AbbrTable} {e : Element}
    {rest : List Element} {out : List Item}
    (h : parseStream cfg ab (e :: rest) = .ok out) :
    ∃ items ab2 out2, handleEvent cfg ab e = .ok (items, ab2) ∧
      parseStream cfg ab2 rest = .ok out2 ∧ out = items ++ out2 := by
  rw [parseStream] at h
  split at h
  · cases h
  · next items ab2 hev =>
    split at h
    · cases h
    · next out2 hps =>
      cases h
      exact ⟨items, ab2, out2, hev, hps, rfl⟩

theorem parseStream_cons_items {cfg : Config} {ab : AbbrTable} {e : Element}
    {rest : List Element} {items : List Item} {ab2 : AbbrTable}
    (h : handleEvent cfg ab e = .ok (items, ab2)) :
    parseStream cfg ab (e :: rest) =
      (parseStream cfg ab2 rest).map (fun out => items ++ out) := by
  rw [parseStream, h]
  show (match parseStream cfg ab2 rest with
        | Except.error er => Except.error er
        | Except.ok out => Except.ok (items ++ out)) =
      (parseStream cfg ab2 rest).map (fun out => items ++ out)
  cases parseStream cfg ab2 rest <;> rfl

theorem handleEvent_content_nonempty :
    ∀ {cfg : Config} {ab : AbbrTable} {e : Element} {items : List Item}
      {ab2 : AbbrTable}, handleEvent cfg ab e = .ok (items, ab2) →
      ∀ txt ks ct, Item.content txt ks ct ∈ items → ks ≠ [] := by
  intro cfg ab e items ab2 h txt ks ct hmem
  by_cases h5 : e.tag = "ar"
  · obtain ⟨txt2, titles, -, hts, -, hcase⟩ := handleEvent_ar h5 h
    rcases hcase with ⟨hne, hout⟩ | ⟨-, s, -, hout⟩
    · rw [show (items, ab2).1 = items from rfl] at hout
      rw [hout] at hmem
      simp only [List.mem_singleton] at hmem
      cases hmem
      exact hne
    · rw [show (items, ab2).1 = items from rfl] at hout
      rw [hout] at hmem
      simp at hmem
  · rw [handleEvent] at h
    split_ifs at h with h1 h2 h3 h4
    · cases h; simp at hmem
    · cases h; simp at hmem
    · cases h; simp at hmem
    · cases h; simp at hmem
    · cases h; simp at hmem

/-- C5 (amended): every emitted `Content` record has a non-empty key list;
an article whose title expansion yields zero keys *and whose body renders
without error* produces zero `Content` records and exactly one warning
holding the serialized article, with the rest of the stream still
processed; in particular an article with zero `k` elements has a zero-key
expansion.  (The rendering proviso is forced by the counterexample
below.) -/
theorem c5_empty_keys_dropped :
    (∀ (cfg : Config) (ab : AbbrTable) (es : List Element) (out : List Item),
      parseStream cfg ab es = .ok out →
      ∀ txt ks ct, Item.content txt ks ct ∈ out → ks ≠ []) ∧
    (∀ (cfg : Config) (ab : AbbrTable) (e : Element) (rest : List Element)
      (txt s : String), e.tag = "ar" → articleTitles e = .ok [] →
      textRender cfg ab e = .ok txt → tostring e = .ok s →
      parseStream cfg ab (e :: rest) =
        (parseStream cfg ab rest).map
          (fun out => Item.warn (XML_DECL ++ s) :: out)) ∧
    (∀ e : Element, kChildren e = [] → articleTitles e = .ok []) := by
  refine ⟨?_, ?_, fun e hk => articleTitles_no_k hk⟩
  · intro cfg ab es
    induction es generalizing ab with
    | nil =>
      intro out h txt ks ct hmem
      cases h
      simp at hmem
    | cons e rest ih =>
      intro out h txt ks ct hmem
      obtain ⟨items, ab2, out2, hev, hps, rfl⟩ := parseStream_cons_ok h
      rcases List.mem_append.mp hmem with hm | hm
      · exact handleEvent_content_nonempty hev txt ks ct hm
      · exact ih ab2 out2 hps txt ks ct hm
  · intro cfg ab e rest txt s he hts htxt hs
    have hev : handleEvent cfg ab e = .ok ([.warn (XML_DECL ++ s)], ab) := by
      simp [handleEvent, he, htxt, hts, hs]
    rw [parseStream_cons_items hev]
    rfl

/-- Counterexample to claim C5 as stated: `<ar><kref/></ar>` yields zero
keys, yet instead of one warning and continued processing, serialization of
the `None` `href` raises, no warning is logged and the following article of
the stream is never processed. -/
theorem c5_counterexample :
    articleTitles krefArticleEl = .ok [] ∧
    parseStream ⟨false, false⟩ [] [krefArticleEl, sampleArticle] = .error () :=
  ⟨rfl, rfl⟩

/-- Witness for C5 (amended): a concrete no-title article is turned into
exactly one warning and the following article is still emitted. -/
theorem c5_empty_keys_dropped_witness :
    parseStream ⟨false, false⟩ [] [⟨"ar", [], some "hello", [], none⟩, sampleArticle] =
      (parseStream ⟨false, false⟩ [] [sampleArticle]).map
        (fun out =>
          Item.warn (XML_DECL ++ "<ar>hello</ar>") :: out) :=
  c5_empty_keys_dropped.2.1 ⟨false, false⟩ [] ⟨"ar", [], some "hello", [], none⟩
    [sampleArticle] _ _ rfl rfl rfl rfl

/-! ### Claim C6 -/
theorem definedList_iff : ∀ cs : List Element,
    definedList cs = true ↔ ∀ c ∈ cs, definedTree c = true := by
  intro cs
  induction cs with
  | nil => simp [definedList]
  | cons c rest ih =>
    rw [definedList, Bool.and_eq_true, ih]
    constructor
    · rintro ⟨h1, h2⟩ c' hc'
      rcases List.mem_cons.mp hc' with rfl | hm
      · exact h1
      · exact h2 c' hm
    · intro h
      exact ⟨h c (by simp), fun c' hc' => h c' (by simp [hc'])⟩

theorem definedTree_parts {e : Element} (h : definedTree e = true) :
    e.text.isSome = true ∧
    e.attrib.all (fun kv => kv.2.isSome) = true ∧
    ∀ c ∈ e.children, definedTree c = true := by
  cases e with
  | mk tag attrib text children tail =>
    rw [definedTree, Bool.and_eq_true, Bool.and_eq_true] at h
    exact ⟨h.1.1, h.1.2, (definedList_iff children).mp h.2⟩

theorem definedTree_mk {tag : String} {attrib : List (String × Option String)}
    {text : Option String} {children : List Element} {tail : Option String}
    (h1 : text.isSome = true) (h2 : attrib.all (fun kv => kv.2.isSome) = true)
    (h3 : ∀ c ∈ children, definedTree c = true) :
    definedTree ⟨tag, attrib, text, children, tail⟩ = true := by
  rw [definedTree, Bool.and_eq_true, Bool.and_eq_true]
  exact ⟨⟨h1, h2⟩, (definedList_iff children).mpr h3⟩

theorem attribString_ok : ∀ {l : List (String × Option String)},
    l.all (fun kv => kv.2.isSome) = true → ∃ s, attribString l = .ok s := by
  intro l
  induction l with
  | nil => exact fun _ => ⟨"", rfl⟩
  | cons kv rest ih =>
    intro h
    obtain ⟨k, v⟩ := kv
    rw [List.all_cons, Bool.and_eq_true] at h
    obtain ⟨hv, hrest⟩ := h
    cases v with
    | none => simp at hv
    | some v' =>
      obtain ⟨s, hs⟩ := ih hrest
      exact ⟨_, by rw [attribString, hs]⟩

theorem tostringList_ok_of : ∀ cs : List Element,
    (∀ c ∈ cs, ∃ s, tostring c = .ok s) → ∃ s, tostringList cs = .ok s := by
  intro cs
  induction cs with
  | nil => exact fun _ => ⟨"", rfl⟩
  | cons c rest ih =>
    intro h
    obtain ⟨s, hs⟩ := h c (by simp)
    obtain ⟨t, ht⟩ := ih (fun c' hc' => h c' (by simp [hc']))
    exact ⟨s ++ t, by rw [tostringList, hs, ht]⟩

theorem tostring_ok : ∀ e : Element, definedTree e = true →
    ∃ s, tostring e = .ok s := by
  apply element_ind
  intro e ih hd
  obtain ⟨htext, hattr, hchild⟩ := definedTree_parts hd
  obtain ⟨as, has⟩ := attribString_ok hattr
  obtain ⟨inner, hinner⟩ :=
    tostringList_ok_of e.children (fun c hc => ih c hc (hchild c hc))
  cases e with
  | mk tag attrib text children tail =>
    simp only [tostring]
    simp only [show attribString attrib = .ok as from has,
      show tostringList children = .ok inner from hinner]
    by_cases hc : (truthy text || !children.isEmpty) = true
    · rw [if_pos hc]
      exact ⟨_, rfl⟩
    · rw [if_neg hc]
      exact ⟨_, rfl⟩

theorem transformNode_text (ab : AbbrTable) (e : Element) :
    (transformNode ab e).text = e.text := by
  simp only [transformNode, default_tag_handler]
  split_ifs <;> rfl

theorem transformNode_tail (ab : AbbrTable) (e : Element) :
    (transformNode ab e).tail = e.tail := by
  simp only [transformNode, default_tag_handler]
  split_ifs <;> rfl

theorem all_setAttr : ∀ {l : List (String × Option String)} {k : String}
    {v : Option String}, l.all (fun kv => kv.2.isSome) = true →
    v.isSome = true → (setAttr l k v).all (fun kv => kv.2.isSome) = true := by
  intro l
  induction l with
  | nil => intro k v _ hv; simp [setAttr, hv]
  | cons kv rest ih =>
    intro k v hl hv
    obtain ⟨k', v'⟩ := kv
    rw [List.all_cons, Bool.and_eq_true] at hl
    rw [setAttr]
    by_cases h : k' = k
    · rw [if_pos h, List.all_cons, Bool.and_eq_true]
      exact ⟨hv, hl.2⟩
    · rw [if_neg h, List.all_cons, Bool.and_eq_true]
      exact ⟨hl.1, ih hl.2 hv⟩

theorem lookup_mem_vals : ∀ {ab : AbbrTable} {k v : Option String},
    List.lookup k ab = some v → definedVals ab = true → v.isSome = true := by
  intro ab
  induction ab with
  | nil => intro k v h _; cases h
  | cons kv rest ih =>
    intro k v h hall
    obtain ⟨k', v'⟩ := kv
    rw [definedVals, List.all_cons, Bool.and_eq_true] at hall
    rw [List.lookup] at h
    by_cases hk : k == k'
    · rw [hk] at h
      cases h
      exact hall.1
    · rw [Bool.eq_false_iff.mpr hk] at h
      exact ih h hall.2

theorem dictGet_defined {ab : AbbrTable} {k : Option String}
    (hc : dictContains ab k = true) (hab : definedVals ab = true) :
    (dictGet ab k).isSome = true := by
  rw [dictContains] at hc
  rw [dictGet]
  cases hl : List.lookup k ab with
  | none => rw [hl] at hc; cases hc
  | some v => exact lookup_mem_vals hl hab

theorem transformNode_attrib_defined {ab : AbbrTable} {e : Element}
    (hd : definedTree e = true) (hab : definedVals ab = true) :
    (transformNode ab e).attrib.all (fun kv => kv.2.isSome) = true := by
  obtain ⟨htext, hattr, -⟩ := definedTree_parts hd
  simp only [transformNode, default_tag_handler]
  split_ifs with h1 h2 h3 h4 h5 h6 h7 h8 h9 h10
  all_goals first
    | exact hattr
    | rfl
    | exact all_setAttr hattr rfl
    | exact all_setAttr hattr htext
    | exact all_setAttr hattr (dictGet_defined h9 hab)

theorem transformNode_defined {ab : AbbrTable} {e : Element}
    (hd : definedTree e = true) (hab : definedVals ab = true) :
    definedTree (transformNode ab e) = true := by
  obtain ⟨htext, -, hchild⟩ := definedTree_parts hd
  have hc := transformNode_children ab e
  have ht := transformNode_text ab e
  cases htn : transformNode ab e with
  | mk tag2 attrib2 text2 children2 tail2 =>
    rw [htn] at hc ht
    apply definedTree_mk
    · rw [show text2 = e.text from ht]
      exact htext
    · have := transformNode_attrib_defined hd hab
      rw [htn] at this
      exact this
    · intro c hcm
      rw [show children2 = e.children from hc] at hcm
      exact hchild c hcm

theorem transformTree_eq (ab : AbbrTable) (e : Element) :
    transformTree ab e =
      ⟨(transformNode ab e).tag, (transformNode ab e).attrib,
       (transformNode ab e).text, transformTreeList ab e.children,
       (transformNode ab e).tail⟩ := by
  cases e with
  | mk tag attrib text children tail =>
    rw [transformTree]
    rcases htn : transformNode ab ⟨tag, attrib, text, children, tail⟩ with
      ⟨t2, a2, x2, c2, l2⟩
    rfl

theorem transformTreeList_defined : ∀ (cs : List Element),
    (∀ c ∈ cs, definedTree c = true → definedTree (transformTree ab c) = true) →
    (∀ c ∈ cs, definedTree c = true) →
    ∀ c ∈ transformTreeList ab cs, definedTree c = true := by
  intro cs
  induction cs with
  | nil => intro _ _ c hc; cases hc
  | cons c0 rest ih =>
    intro hstep hd c hc
    rw [transformTreeList] at hc
    rcases List.mem_cons.mp hc with rfl | hm
    · exact hstep c0 (by simp) (hd c0 (by simp))
    · exact ih (fun c' h1 h2 => hstep c' (by simp [h1]) h2)
        (fun c' h1 => hd c' (by simp [h1])) c hm

theorem transformTree_defined {ab : AbbrTable} (hab : definedVals ab = true) :
    ∀ e : Element, definedTree e = true →
      definedTree (transformTree ab e) = true := by
  apply element_ind
  intro e ih hd
  rw [transformTree_eq]
  obtain ⟨htext, -, hchild⟩ := definedTree_parts hd
  have hnode := transformNode_defined hd hab
  obtain ⟨hntext, hnattr, -⟩ := definedTree_parts hnode
  apply definedTree_mk
  · exact hntext
  · exact hnattr
  · exact transformTreeList_defined e.children ih hchild

theorem stripTitles_defined {e : Element} (hd : definedTree e = true) :
    definedTree (stripTitles e) = true := by
  obtain ⟨-, hattr, hchild⟩ := definedTree_parts hd
  obtain ⟨hc, ht, -, ha, -⟩ := c8_strip_titles e
  cases hst : stripTitles e with
  | mk tag2 attrib2 text2 children2 tail2 =>
    rw [hst] at hc ht ha
    apply definedTree_mk
    · rw [show text2 = _ from ht]
      rfl
    · rw [show attrib2 = e.attrib from ha]
      exact hattr
    · intro c hcm
      rw [show children2 = _ from hc] at hcm
      exact hchild c (List.mem_of_mem_filter hcm)

theorem textRender_ok (cfg : Config) (ab : AbbrTable) (e : Element)
    (hd : definedTree e = true) (hab : definedVals ab = true) :
    ∃ txt, textRender cfg ab e = .ok txt := by
  have hd1 : definedTree
      (if cfg.skip_article_title then stripTitles e else e) = true := by
    cases h : cfg.skip_article_title
    · simpa using hd
    · simpa using stripTitles_defined hd
  have hd2 : definedTree
      (transformAll ab (if cfg.skip_article_title then stripTitles e else e))
        = true := by
    rw [transformAll]
    exact transformTree_defined hab _ (transformNode_defined hd1 hab)
  obtain ⟨s, hs⟩ := tostring_ok _ hd2
  refine ⟨ARTICLE_TEMPLATE_head ++
    (if cfg.remove_newline then strReplaceChar s '\n' " " else s), ?_⟩
  show (match tostring
      (transformAll ab (if cfg.skip_article_title then stripTitles e else e)) with
    | Except.error er => Except.error er
    | Except.ok txt =>
      Except.ok (ARTICLE_TEMPLATE_head ++
        (if cfg.remove_newline then strReplaceChar txt '\n' " " else txt))) = _
  rw [hs]

theorem definedTree_text {e : Element} (hd : definedTree e = true) :
    e.text.isSome = true :=
  (definedTree_parts hd).1

theorem mktitleGo_ok_of_defined :
    ∀ (cs : List Element), (∀ c ∈ cs, definedTree c = true) →
    ∀ (incl : List Nat) (i : Nat) (t : Option String),
      ∃ v, mktitleGo incl cs i t = .ok v := by
  intro cs
  induction cs with
  | nil => intro _ incl i t; exact ⟨t, rfl⟩
  | cons c rest ih =>
    intro hd incl i t
    rw [mktitleGo]
    by_cases hopt : c.tag = "opt"
    · rw [if_pos hopt]
      by_cases hin : i ∈ incl
      · rw [if_pos hin]
        obtain ⟨t2, ht2⟩ := appendOpt_isSome_ok
          (if c.tag = "nu" ∧ truthy c.tail then
            appendStr t (c.tail.getD "") else t)
          (definedTree_text (hd c (by simp)))
        rw [ht2]
        exact ih (fun c' hc' => hd c' (by simp [hc'])) incl (i + 1) _
      · rw [if_neg hin]
        exact ih (fun c' hc' => hd c' (by simp [hc'])) incl (i + 1) _
    · rw [if_neg hopt]
      exact ih (fun c' hc' => hd c' (by simp [hc'])) incl i _

theorem titlesForK_ok_defined {k : Element} (hd : definedTree k = true) :
    ∃ ts, titlesForK k = .ok ts := by
  have hch := (definedTree_parts hd).2.2
  rw [titlesForK]
  by_cases hn : countOpts k ≠ 0
  · rw [if_pos hn]
    exact mapExcept_ok_of_all (fun incl _ =>
      mktitleGo_ok_of_defined k.children hch incl 0 k.text)
  · rw [if_neg hn]
    obtain ⟨v, hv⟩ := mktitleGo_ok_of_defined k.children hch [] 0 k.text
    rw [show mktitle k [] = mktitleGo [] k.children 0 k.text from rfl, hv]
    exact ⟨[v], rfl⟩

theorem articleTitles_ok_defined {e : Element} (hd : definedTree e = true) :
    ∃ ks, articleTitles e = .ok ks := by
  have hch := (definedTree_parts hd).2.2
  obtain ⟨tss, htss⟩ := mapExcept_ok_of_all
    (fun k (hk : k ∈ kChildren e) =>
      titlesForK_ok_defined (hch k (List.mem_of_mem_filter hk)))
  rw [articleTitles, htss]
  exact ⟨tss.flatten, rfl⟩

theorem dictInsert_definedVals : ∀ {ab : AbbrTable} {k v : Option String},
    definedVals ab = true → v.isSome = true →
    definedVals (dictInsert ab k v) = true := by
  intro ab
  induction ab with
  | nil => intro k v _ hv; simp [dictInsert, definedVals, hv]
  | cons kv rest ih =>
    intro k v hab hv
    obtain ⟨k', v'⟩ := kv
    rw [definedVals, List.all_cons, Bool.and_eq_true] at hab
    rw [dictInsert]
    by_cases h : k' = k
    · rw [if_pos h, definedVals, List.all_cons, Bool.and_eq_true]
      exact ⟨hv, hab.2⟩
    · rw [if_neg h, definedVals, List.all_cons, Bool.and_eq_true]
      exact ⟨hab.1, ih hab.2 hv⟩

theorem registerKeys_definedVals : ∀ (ks : List Element) {vt : Option String}
    {ab : AbbrTable}, definedVals ab = true → vt.isSome = true →
    definedVals (registerKeys ks vt ab) = true := by
  intro ks
  induction ks with
  | nil => intro vt ab hab _; exact hab
  | cons k rest ih =>
    intro vt ab hab hv
    rw [registerKeys]
    exact ih (dictInsert_definedVals hab hv) hv

theorem findChild_mem {e : Element} {t : String} {v : Element}
    (h : findChild e t = some v) : v ∈ e.children := by
  rw [findChild] at h
  have := List.mem_of_mem_filter (List.mem_of_mem_head? h)
  exact this

theorem mkabbrsGo_definedVals : ∀ (cs : List Element) {ab : AbbrTable},
    (∀ c ∈ cs, definedTree c = true) → definedVals ab = true →
    definedVals (mkabbrsGo cs ab) = true := by
  intro cs
  induction cs with
  | nil => intro ab _ hab; exact hab
  | cons abrdef rest ih =>
    intro ab hd hab
    rw [mkabbrsGo]
    apply ih (fun c hc => hd c (by simp [hc]))
    by_cases h1 : pyLower abrdef.tag = "abr_def"
    · rw [if_pos h1]
      cases hf : findChild abrdef "v" with
      | none => exact hab
      | some value =>
        have hvd : definedTree value = true :=
          (definedTree_parts (hd abrdef (by simp))).2.2 value (findChild_mem hf)
        by_cases h2 : value.children.isEmpty
        · simpa [h2] using hab
        · simpa [h2] using
            registerKeys_definedVals
              (abrdef.children.filter (fun c => c.tag = "k")) hab
              (definedTree_text hvd)
    · rw [if_neg h1]
      exact hab

theorem mkabbrs_definedVals {e : Element} (hd : definedTree e = true) :
    definedVals (mkabbrs e) = true :=
  mkabbrsGo_definedVals e.children (definedTree_parts hd).2.2 rfl

theorem handleEvent_ok {cfg : Config} {ab : AbbrTable} {e : Element}
    (hd : definedTree e = true) (hab : definedVals ab = true) :
    ∃ items ab2, handleEvent cfg ab e = .ok (items, ab2) ∧
      definedVals ab2 = true ∧
      items.countP (fun i => isArticleItem i) =
        (if e.tag = "ar" then 1 else 0) := by
  by_cases h1 : e.tag = "description"
  · refine ⟨[.tag "copyright" (e.text.getD "")], ab, ?_, hab, ?_⟩
    · rw [handleEvent, if_pos h1]
    · rw [if_neg (by rw [h1]; decide)]
      rfl
  · by_cases h2 : e.tag = "full_name"
    · refine ⟨[.tag "label" (e.text.getD ""),
        .tag "uri" (quote (e.text.getD ""))], ab, ?_, hab, ?_⟩
      · rw [handleEvent, if_neg h1, if_pos h2]
      · rw [if_neg (by rw [h2]; decide)]
        rfl
    · by_cases h3 : e.tag = "xdxf"
      · refine ⟨[.tag "lang_to" (pyGet e "lang_to"),
          .tag "lang_from" (pyGet e "lang_from")], ab, ?_, hab, ?_⟩
        · rw [handleEvent, if_neg h1, if_neg h2, if_pos h3]
        · rw [if_neg (by rw [h3]; decide)]
          rfl
      · by_cases h4 : e.tag = "abbreviations"
        · refine ⟨[], mkabbrs e, ?_, mkabbrs_definedVals hd, ?_⟩
          · rw [handleEvent, if_neg h1, if_neg h2, if_neg h3, if_pos h4]
          · rw [if_neg (by rw [h4]; decide)]
            rfl
        · by_cases h5 : e.tag = "ar"
          · obtain ⟨txt, htxt⟩ := textRender_ok cfg ab e hd hab
            obtain ⟨titles, hts⟩ := articleTitles_ok_defined hd
            by_cases hnil : titles = []
            · obtain ⟨s, hs⟩ := tostring_ok e hd
              refine ⟨[.warn (XML_DECL ++ s)], ab, ?_, hab, ?_⟩
              · simp [handleEvent, h5, htxt, hts, hnil, hs]
              · rw [if_pos h5]
                rfl
            · refine ⟨[.content txt titles ARTICLE_CONTENT_TYPE], ab, ?_,
                hab, ?_⟩
              · simp [handleEvent, h5, htxt, hts, hnil]
              · rw [if_pos h5]
                rfl
          · refine ⟨[], ab, ?_, hab, ?_⟩
            · rw [handleEvent, if_neg h1, if_neg h2, if_neg h3, if_neg h4,
                if_neg h5]
            · rw [if_neg h5]
              rfl

/-- Counterexample to claim C6 as stated: a well-formed input stream whose
single article contains an empty `kref` makes the pipeline raise — the
`kref` handler copies the `None` text into the `href` attribute and
serialization fails — so raising is not equivalent to the input being
malformed. -/
theorem c6_counterexample :
    parseStream ⟨false, false⟩ [] [c6ArticleEl] = .error () := rfl

/-- C6 (amended): parsing aborts on input that is not well-formed markup,
and can also abort on well-formed input when an article makes the
transformation serialize an absent string (a `kref` with no text, an
abbreviation expanding to an absent value) or appends an absent optional
segment text; on streams whose elements all carry present texts and
attribute values the run never raises — every article is processed to
completion (one `Content` or one warning per article) and per-article
conditions such as missing titles or unresolvable abbreviations never abort
the overall run. -/
theorem c6_defined_stream_ok : ∀ (es : List Element) (cfg : Config)
    (ab : AbbrTable), (∀ e ∈ es, definedTree e = true) →
    definedVals ab = true →
    ∃ out, parseStream cfg ab es = .ok out ∧
      out.countP (fun i => isArticleItem i) =
        es.countP (fun e => e.tag = "ar") := by
  intro es
  induction es with
  | nil => intro cfg ab _ _; exact ⟨[], rfl, rfl⟩
  | cons e rest ih =>
    intro cfg ab hes hab
    obtain ⟨items, ab2, hev, hab2, hcount⟩ :=
      handleEvent_ok (hes e (by simp)) hab
    obtain ⟨out2, hps, hc2⟩ :=
      ih cfg ab2 (fun e' he' => hes e' (by simp [he'])) hab2
    refine ⟨items ++ out2, ?_, ?_⟩
    · rw [parseStream_cons_items hev, hps]
      rfl
    · rw [List.countP_append, hcount, hc2, List.countP_cons]
      by_cases he : e.tag = "ar" <;> simp [he] <;> omega

/-- Witness for C6 (amended): a concrete fully-defined one-article stream
parses without error and yields exactly one article item. -/
theorem c6_defined_stream_ok_witness :
    ∃ out, parseStream ⟨false, false⟩ [] [definedArticleEl] = .ok out ∧
      out.countP (fun i => isArticleItem i) =
        [definedArticleEl].countP (fun e => e.tag = "ar") :=
  c6_defined_stream_ok [definedArticleEl] ⟨false, false⟩ []
    (by decide) (by decide)

end XdxfToSlob

